import Mathlib

/-!
Verification of the NEAT reproduction core (`neat/reproduction.py`).

The Python source is shallowly embedded below:
* Python floats are modelled as exact rationals `ℚ`;
* Python dicts (`s.members`, `new_population`, `species.species`,
  `self.ancestors`) are modelled as association lists in insertion order,
  with `dictInsert` giving the replace-or-append dict-assignment semantics;
* Python arithmetic faults (`ZeroDivisionError` on `x / 0`, `IndexError`
  from `random.choice([])`) are modelled by `Except Unit`;
* the external collaborators (stagnation tracker output, genome crossover
  and mutation, the random source) are inputs of the model:
  `stagnation.update(species.species)` is passed as its result list, and
  `random.choice` is driven by an oracle `choice : ℕ → ℕ` consumed with an
  explicit call counter;
* `round` is modelled with round-half-to-even on `ℚ` (Python 3 `round`);
  no claim below exercises an exact-half input.
-/

/-- A genome: a numeric fitness plus an opaque payload standing for all the
structure this core never inspects.  `crossover`/`mutate` are arbitrary
functions over this type, supplied in `ReproEnv`. -/
structure Genome where
  fitness : ℚ
  data : ℕ
deriving DecidableEq

/-- A species: its `members` dict (genome id -> genome) in insertion order. -/
structure Species where
  members : List (ℕ × Genome)
deriving DecidableEq

/-- The external collaborators and configuration consumed by
`DefaultReproduction.reproduce`: `elitism` and `survival_threshold` from the
config, the genome capabilities and the random oracle. -/
structure ReproEnv where
  elitism : ℤ
  survival_threshold : ℚ
  crossover : Genome → Genome → ℕ → Genome
  mutate : Genome → Genome
  choice : ℕ → ℕ

/-- Mutable state threaded through the per-species loop of `reproduce`:
`new_population`, the rebuilt `species.species`, the genome indexer counter,
the random-oracle call counter, and the `self.ancestors` entries added. -/
structure LoopState where
  population : List (ℕ × Genome)
  speciesMap : List (ℕ × Species)
  indexer : ℕ
  rng : ℕ
  ancestors : List (ℕ × ℕ × ℕ)
deriving DecidableEq

/-- Result of one `reproduce` call. -/
structure ReproResult where
  population : List (ℕ × Genome)
  speciesMap : List (ℕ × Species)
  indexer : ℕ
  ancestors : List (ℕ × ℕ × ℕ)
deriving DecidableEq

/-- Keys of an association list. -/
def keys (d : List (ℕ × Genome)) : List ℕ := d.map Prod.fst

/-- Python dict assignment `d[k] = v`: replace the entry if the key is
present, otherwise append. -/
def dictInsert (d : List (ℕ × Genome)) (k : ℕ) (v : Genome) : List (ℕ × Genome) :=
  if k ∈ keys d then d.map (fun p => if p.1 = k then (k, v) else p) else d ++ [(k, v)]

/-- Stable insertion for descending-fitness order; an element is placed in
front of every element of smaller or equal fitness, which reproduces the
stability of Python `list.sort(reverse=True, key=...)`. -/
def insertDesc (x : ℕ × Genome) : List (ℕ × Genome) → List (ℕ × Genome)
  | [] => [x]
  | y :: ys => if y.2.fitness ≤ x.2.fitness then x :: y :: ys else y :: insertDesc x ys

/-- The sort `old_members.sort(reverse=True, key=lambda x: x[1].fitness)`: stable
descending sort by fitness. -/
def sortDesc : List (ℕ × Genome) → List (ℕ × Genome)
  | [] => []
  | x :: xs => insertDesc x (sortDesc xs)

/-- The loop `for m in itervalues(s.members): species_sum += m.fitness / len(s.members)`. -/
def sharedSum (members : List (ℕ × Genome)) : ℚ :=
  members.foldl (fun acc m => acc + m.2.fitness / (members.length : ℚ)) 0

/-- Line 60, `sfitness = species_sum / len(s.members)`; `none` models the
`ZeroDivisionError` raised when the species has no members. -/
def adjustedFitness (members : List (ℕ × Genome)) : Option ℚ :=
  if members.length = 0 then none
  else some (sharedSum members / (members.length : ℚ))

/-- The stagnation-filter loop of `reproduce` (lines 48-62): walks the
stagnation tracker's output, skips stagnant species, and collects
`(sid, s, sfitness)` for the rest; an active species with no members raises. -/
def collectFitness : List (ℕ × Species × Bool) → Except Unit (List (ℕ × Species × ℚ))
  | [] => .ok []
  | (sid, s, stagnant) :: rest =>
    if stagnant then collectFitness rest
    else
      match adjustedFitness s.members with
      | none => .error ()
      | some sf => (collectFitness rest).map (fun tl => (sid, s, sf) :: tl)

/-- Line 69, `avg_adjusted_fitness /= len(species_fitness)`. -/
def avgAdjusted (l : List (ℕ × Species × ℚ)) : ℚ :=
  (l.map (fun e => e.2.2)).sum / (l.length : ℚ)

/-- Lines 74-80: `spawn = len(s.members)` scaled by `1.1` when the species'
adjusted fitness exceeds the average, else by `0.9`. -/
def rawSpawn (avg : ℚ) (e : ℕ × Species × ℚ) : ℚ :=
  (e.2.1.members.length : ℚ) * (if avg < e.2.2 then 11/10 else 9/10)

/-- Python 3 `round` on an exact rational: round half to even. -/
def pyRound (q : ℚ) : ℤ :=
  if q - ⌊q⌋ < 1/2 then ⌊q⌋
  else if 1/2 < q - ⌊q⌋ then ⌊q⌋ + 1
  else if ⌊q⌋ % 2 = 0 then ⌊q⌋ else ⌊q⌋ + 1

/-- Lines 84-86: `norm = pop_size / total_spawn` followed by
`[int(round(n * norm)) for n in spawn_amounts]`; `.error` models the
`ZeroDivisionError` when the total raw spawn is zero. -/
def normSpawns (l : List (ℕ × Species × ℚ)) (pop_size : ℕ) : Except Unit (List ℤ) :=
  let raws := l.map (rawSpawn (avgAdjusted l))
  if raws.sum = 0 then .error ()
  else .ok (raws.map (fun r => pyRound (r * ((pop_size : ℚ) / raws.sum))))

/-- Lines 117-120: `repro_cutoff = max(int(math.ceil(survival_threshold *
len(old_members))), 2)` and `old_members[:repro_cutoff]`. -/
def breedingPool (threshold : ℚ) (old : List (ℕ × Genome)) : List (ℕ × Genome) :=
  old.take (max ⌈threshold * (old.length : ℚ)⌉ 2).toNat

/-- One iteration of the breeding `while` loop (lines 123-135): two
`random.choice` draws, a fresh genome id, crossover, in-place mutation,
insertion into the new population and the ancestry record.  `.error` models
the `IndexError` of `random.choice` on an empty pool. -/
def breedStep (env : ReproEnv) (pool : List (ℕ × Genome)) (st : LoopState) :
    Except Unit LoopState :=
  match pool with
  | [] => .error ()
  | p :: ps =>
    let parent1 := (p :: ps).getD (env.choice st.rng % (p :: ps).length) p
    let parent2 := (p :: ps).getD (env.choice (st.rng + 1) % (p :: ps).length) p
    let gid := st.indexer
    let child := env.mutate (env.crossover parent1.2 parent2.2 gid)
    .ok { st with
      population := dictInsert st.population gid child
      indexer := st.indexer + 1
      rng := st.rng + 2
      ancestors := st.ancestors ++ [(gid, parent1.1, parent2.1)] }

/-- The breeding `while spawn > 0` loop, run for `fuel = spawn` iterations. -/
def breedLoop (env : ReproEnv) (pool : List (ℕ × Genome)) :
    ℕ → LoopState → Except Unit LoopState
  | 0, st => .ok st
  | fuel + 1, st => (breedStep env pool st).bind (breedLoop env pool fuel)

/-- Lines 108-111: the elites transferred for a species, `old_members[:elitism]`
of the descending-sorted members, taken only when `elitism > 0`. -/
def elitesOf (env : ReproEnv) (old : List (ℕ × Genome)) : List (ℕ × Genome) :=
  if 0 < env.elitism then old.take env.elitism.toNat else []

/-- Lines 99-111: retain the species with membership reset and transfer its
elites into the new population (`spawn` is decremented once per elite). -/
def afterElites (env : ReproEnv) (st : LoopState) (sid : ℕ) (old : List (ℕ × Genome)) :
    LoopState :=
  { st with
    speciesMap := st.speciesMap ++ [(sid, ⟨[]⟩)]
    population := (elitesOf env old).foldl (fun d p => dictInsert d p.1 p.2) st.population }

/-- The body of the per-species loop (lines 92-135) for one entry
`(spawn, (sid, s, sfitness))` of `zip(spawn_amounts, species_fitness)`:
elitism floor, extinction check, species retention with membership reset,
descending sort, elite transfer, survival-threshold cutoff, breeding. -/
def processSpecies (env : ReproEnv) (st : LoopState) (e : ℤ × ℕ × Species × ℚ) :
    Except Unit LoopState :=
  if max e.1 env.elitism ≤ 0 then .ok st
  else if max e.1 env.elitism - (elitesOf env (sortDesc e.2.2.1.members)).length ≤ 0 then
    .ok (afterElites env st e.2.1 (sortDesc e.2.2.1.members))
  else
    breedLoop env (breedingPool env.survival_threshold (sortDesc e.2.2.1.members))
      (max e.1 env.elitism - (elitesOf env (sortDesc e.2.2.1.members)).length).toNat
      (afterElites env st e.2.1 (sortDesc e.2.2.1.members))

/-- The per-species loop over `zip(spawn_amounts, species_fitness)`. -/
def reproduceLoop (env : ReproEnv) :
    List (ℤ × ℕ × Species × ℚ) → LoopState → Except Unit LoopState
  | [], st => .ok st
  | e :: rest, st => (processSpecies env st e).bind (reproduceLoop env rest)

/-- The entry point `DefaultReproduction.reproduce(species, pop_size)`.  The stagnation
tracker's output is the input `stag`; `indexer` and `rng` are the current
genome-indexer counter and random-oracle position.  `.error` models an
uncaught Python exception. -/
def reproduce (env : ReproEnv) (indexer rng : ℕ) (stag : List (ℕ × Species × Bool))
    (pop_size : ℕ) : Except Unit ReproResult :=
  (collectFitness stag).bind (fun l =>
    if l.length = 0 then .ok ⟨[], [], indexer, []⟩
    else
      (normSpawns l pop_size).bind (fun spawns =>
        (reproduceLoop env (spawns.zip l) ⟨[], [], indexer, rng, []⟩).map
          (fun st => ⟨st.population, st.speciesMap, st.indexer, st.ancestors⟩)))

/-- State built by `DefaultReproduction.__init__`. -/
structure DefaultReproductionState where
  elitism : ℤ
  survival_threshold : ℚ
  genome_indexer : ℕ
  ancestors : List (ℕ × ℕ × ℕ)
deriving DecidableEq

/-- Constructor `DefaultReproduction.__init__` (lines 19-28): stores the configured
`elitism` and `survival_threshold` unchecked, creates `Indexer(1)` and an
empty ancestry record. -/
def DefaultReproduction.init (elitism : ℤ) (survival_threshold : ℚ) :
    DefaultReproductionState :=
  ⟨elitism, survival_threshold, 1, []⟩

/-- Number of elites transferred for a species with normalized spawn count
`spawn` and `m` members: the slice `old_members[:elitism]` has
`min elitism m` entries, taken only when `elitism > 0` and the species is
not extinct after the elitism floor. -/
def elitesCopied (env : ReproEnv) (spawn : ℤ) (m : ℕ) : ℕ :=
  if max spawn env.elitism ≤ 0 then 0
  else if 0 < env.elitism then min env.elitism.toNat m else 0

/-- Number of offspring bred for such a species: what remains of
`max spawn elitism` after decrementing once per transferred elite. -/
def offspringBred (env : ReproEnv) (spawn : ℤ) (m : ℕ) : ℕ :=
  if max spawn env.elitism ≤ 0 then 0
  else (max spawn env.elitism - elitesCopied env spawn m).toNat

/-- Member ids of the species of one zipped loop entry. -/
def entryIds (e : ℤ × ℕ × Species × ℚ) : List ℕ := e.2.2.1.members.map Prod.fst

/-- All member ids of the species in the zipped loop list. -/
def allEntryIds (l : List (ℤ × ℕ × Species × ℚ)) : List ℕ := l.flatMap entryIds

/-- Member ids of all non-stagnant species in the stagnation output. -/
def activeIds (stag : List (ℕ × Species × Bool)) : List ℕ :=
  stag.flatMap (fun e => if e.2.2 then [] else e.2.1.members.map Prod.fst)

deriving instance DecidableEq for Except

theorem except_map_ok {α β : Type} (f : α → β) (x : Except Unit α) (b : β)
    (h : x.map f = .ok b) : ∃ a, x = .ok a ∧ b = f a := by
  cases x with
  | error e => simp [Except.map] at h
  | ok a => exact ⟨a, rfl, by simpa [Except.map] using h.symm⟩

theorem except_bind_ok {α β : Type} (x : Except Unit α) (f : α → Except Unit β) (b : β)
    (h : x.bind f = .ok b) : ∃ a, x = .ok a ∧ f a = .ok b := by
  cases x with
  | error e => simp [Except.bind] at h
  | ok a => exact ⟨a, rfl, by simpa [Except.bind] using h⟩

theorem dictInsert_fresh (d : List (ℕ × Genome)) (k : ℕ) (v : Genome) (h : k ∉ keys d) :
    dictInsert d k v = d ++ [(k, v)] := by
  simp [dictInsert, h]

theorem keys_dictInsert_fresh (d : List (ℕ × Genome)) (k : ℕ) (v : Genome) (h : k ∉ keys d) :
    keys (dictInsert d k v) = keys d ++ [k] := by
  rw [dictInsert_fresh d k v h]; simp [keys]

theorem length_dictInsert_fresh (d : List (ℕ × Genome)) (k : ℕ) (v : Genome) (h : k ∉ keys d) :
    (dictInsert d k v).length = d.length + 1 := by
  rw [dictInsert_fresh d k v h]; simp

theorem mem_dictInsert_self (d : List (ℕ × Genome)) (k : ℕ) (v : Genome) :
    (k, v) ∈ dictInsert d k v := by
  unfold dictInsert
  split
  · rename_i h
    simp only [keys, List.mem_map] at h
    obtain ⟨p, hp, hk⟩ := h
    exact List.mem_map.mpr ⟨p, hp, by simp [hk]⟩
  · exact List.mem_append_right _ (by simp)

theorem mem_dictInsert_of_ne (d : List (ℕ × Genome)) (k : ℕ) (v : Genome)
    (p : ℕ × Genome) (hp : p ∈ d) (hne : p.1 ≠ k) : p ∈ dictInsert d k v := by
  unfold dictInsert
  split
  · exact List.mem_map.mpr ⟨p, hp, by simp [hne]⟩
  · exact List.mem_append_left _ hp

theorem mem_keys_dictInsert (d : List (ℕ × Genome)) (k : ℕ) (v : Genome) (a : ℕ)
    (h : a ∈ keys (dictInsert d k v)) : a ∈ keys d ∨ a = k := by
  unfold dictInsert at h
  split at h
  · simp only [keys, List.map_map, List.mem_map, Function.comp] at h
    obtain ⟨p, hp, ha⟩ := h
    by_cases hk : p.1 = k
    · right; rw [← ha]; simp [hk]
    · left; exact List.mem_map.mpr ⟨p, hp, by rw [← ha]; simp [hk]⟩
  · simp only [keys, List.map_append, List.mem_append, List.map_cons, List.map_nil,
      List.mem_singleton] at h
    exact h

theorem insertDesc_perm (x : ℕ × Genome) (l : List (ℕ × Genome)) :
    (insertDesc x l).Perm (x :: l) := by
  induction l with
  | nil => simp [insertDesc]
  | cons y ys ih =>
    unfold insertDesc
    split
    · exact List.Perm.refl _
    · exact (ih.cons y).trans (List.Perm.swap x y ys)

theorem sortDesc_perm (l : List (ℕ × Genome)) : (sortDesc l).Perm l := by
  induction l with
  | nil => exact List.Perm.refl _
  | cons x xs ih => exact (insertDesc_perm x (sortDesc xs)).trans (ih.cons x)

theorem length_sortDesc (l : List (ℕ × Genome)) : (sortDesc l).length = l.length :=
  (sortDesc_perm l).length_eq

theorem pyRound_sub_abs_le (q : ℚ) : |(pyRound q : ℚ) - q| ≤ 1/2 := by
  have h0 : (⌊q⌋ : ℚ) ≤ q := Int.floor_le q
  have h1 : q < ⌊q⌋ + 1 := Int.lt_floor_add_one q
  unfold pyRound
  split
  · rename_i h; rw [abs_le]; constructor <;> [linarith; linarith]
  · rename_i h
    split
    · rename_i h2; push_cast; rw [abs_le]; constructor <;> [linarith; linarith]
    · rename_i h2
      split <;> (push_cast; rw [abs_le]; constructor <;> [linarith; linarith])

theorem pyRound_nonneg (q : ℚ) (h : 0 ≤ q) : 0 ≤ pyRound q := by
  have hf : 0 ≤ ⌊q⌋ := Int.floor_nonneg.mpr h
  unfold pyRound
  split
  · exact hf
  · split
    · omega
    · split <;> omega

theorem sharedSum_foldl (c : ℚ) (l : List (ℕ × Genome)) (a : ℚ) :
    l.foldl (fun acc m => acc + m.2.fitness / c) a
      = a + (l.map (fun m => m.2.fitness)).sum / c := by
  induction l generalizing a with
  | nil => simp
  | cons x xs ih =>
    simp only [List.foldl_cons, List.map_cons, List.sum_cons]
    rw [ih, add_div]
    ring

theorem adjustedFitness_eq (members : List (ℕ × Genome)) (h : members ≠ []) :
    adjustedFitness members
      = some (((members.map (fun m => m.2.fitness)).sum / (members.length : ℚ))
          / (members.length : ℚ)) := by
  unfold adjustedFitness sharedSum
  rw [if_neg (by simpa using h), sharedSum_foldl]
  simp

theorem collectFitness_mem (stag : List (ℕ × Species × Bool)) :
    ∀ (l : List (ℕ × Species × ℚ)), collectFitness stag = .ok l →
    ∀ sid s sf, (sid, s, sf) ∈ l → adjustedFitness s.members = some sf := by
  induction stag with
  | nil =>
    intro l h sid s sf hmem
    simp only [collectFitness, Except.ok.injEq] at h
    subst h
    simp at hmem
  | cons a rest ih =>
    obtain ⟨sid0, s0, stg0⟩ := a
    intro l h sid s sf hmem
    simp only [collectFitness] at h
    split at h
    · exact ih l h sid s sf hmem
    · cases hadj : adjustedFitness s0.members with
      | none => rw [hadj] at h; cases h
      | some sf0 =>
        rw [hadj] at h
        obtain ⟨tl, htl, hl⟩ := except_map_ok _ _ _ h
        subst hl
        rcases List.mem_cons.mp hmem with heq | hmem2
        · injection heq with e1 e2
          injection e2 with e2 e3
          subst e1; subst e2; subst e3
          exact hadj
        · exact ih tl htl sid s sf hmem2

theorem collectFitness_all_stagnant (stag : List (ℕ × Species × Bool))
    (h : ∀ e ∈ stag, e.2.2 = true) : collectFitness stag = .ok [] := by
  induction stag with
  | nil => rfl
  | cons a rest ih =>
    obtain ⟨sid0, s0, stg0⟩ := a
    have ha : stg0 = true := h (sid0, s0, stg0) (by simp)
    simp only [collectFitness, ha, if_true]
    exact ih (fun e he => h e (List.mem_cons_of_mem _ he))

theorem collectFitness_error_of_empty (stag : List (ℕ × Species × Bool)) :
    ∀ sid s, (sid, s, false) ∈ stag → s.members = [] →
    collectFitness stag = .error () := by
  induction stag with
  | nil => intro sid s h; simp at h
  | cons a rest ih =>
    obtain ⟨sid0, s0, stg0⟩ := a
    intro sid s hmem hempty
    rcases List.mem_cons.mp hmem with heq | hmem2
    · injection heq with e1 e2
      injection e2 with e2 e3
      subst e1; subst e2
      simp only [collectFitness, ← e3, Bool.false_eq_true, if_false]
      have hadj : adjustedFitness s.members = none := by simp [adjustedFitness, hempty]
      rw [hadj]
    · have hrest := ih sid s hmem2 hempty
      simp only [collectFitness]
      split
      · exact hrest
      · cases hadj : adjustedFitness s0.members with
        | none => rfl
        | some sf0 => rw [hrest]; rfl

theorem collectFitness_active_mem (stag : List (ℕ × Species × Bool)) :
    ∀ (l : List (ℕ × Species × ℚ)), collectFitness stag = .ok l →
    ∀ sid s, (sid, s, false) ∈ stag → ∃ sf, (sid, s, sf) ∈ l := by
  induction stag with
  | nil => intro l h sid s hmem; simp at hmem
  | cons a rest ih =>
    obtain ⟨sid0, s0, stg0⟩ := a
    intro l h sid s hmem
    simp only [collectFitness] at h
    rcases List.mem_cons.mp hmem with heq | hmem2
    · injection heq with e1 e2
      injection e2 with e2 e3
      subst e1; subst e2
      rw [if_neg (by rw [← e3]; simp)] at h
      cases hadj : adjustedFitness s.members with
      | none => rw [hadj] at h; cases h
      | some sf0 =>
        rw [hadj] at h
        obtain ⟨tl, htl, hl⟩ := except_map_ok _ _ _ h
        subst hl
        exact ⟨sf0, by simp⟩
    · split at h
      · exact ih l h sid s hmem2
      · cases hadj : adjustedFitness s0.members with
        | none => rw [hadj] at h; cases h
        | some sf0 =>
          rw [hadj] at h
          obtain ⟨tl, htl, hl⟩ := except_map_ok _ _ _ h
          subst hl
          obtain ⟨sf, hsf⟩ := ih tl htl sid s hmem2
          exact ⟨sf, List.mem_cons_of_mem _ hsf⟩

theorem collectFitness_ids (stag : List (ℕ × Species × Bool)) :
    ∀ (l : List (ℕ × Species × ℚ)), collectFitness stag = .ok l →
    l.flatMap (fun e => e.2.1.members.map Prod.fst) = activeIds stag := by
  induction stag with
  | nil =>
    intro l h
    simp only [collectFitness, Except.ok.injEq] at h
    subst h
    simp [activeIds]
  | cons a rest ih =>
    obtain ⟨sid0, s0, stg0⟩ := a
    intro l h
    simp only [collectFitness] at h
    unfold activeIds
    rw [List.flatMap_cons]
    split at h
    · rename_i hstg
      simp only [hstg, if_true, List.nil_append]
      exact (ih l h).trans rfl
    · rename_i hstg
      cases hadj : adjustedFitness s0.members with
      | none => rw [hadj] at h; cases h
      | some sf0 =>
        rw [hadj] at h
        obtain ⟨tl, htl, hl⟩ := except_map_ok _ _ _ h
        subst hl
        rw [List.flatMap_cons]
        simp only [hstg, if_false]
        rw [ih tl htl]
        rfl

theorem breedLoop_ancestors (env : ReproEnv) (pool : List (ℕ × Genome))
    (hp : pool ≠ []) : ∀ (fuel : ℕ) (st : LoopState),
    (breedLoop env pool fuel st).map (fun s => s.ancestors.length)
      = .ok (st.ancestors.length + fuel) := by
  intro fuel
  induction fuel with
  | zero => intro st; simp [breedLoop, Except.map]
  | succ fuel ih =>
    intro st
    match pool, hp with
    | p :: ps, _ =>
      simp only [breedLoop, breedStep, Except.bind]
      rw [ih]
      simp only [List.length_append, List.length_singleton, Except.ok.injEq]
      omega

theorem breedLoop_spec (env : ReproEnv) (pool : List (ℕ × Genome)) :
    ∀ (fuel : ℕ) (st st' : LoopState),
    breedLoop env pool fuel st = .ok st' →
    (∀ k ∈ keys st.population, k < st.indexer) →
    st.indexer ≤ st'.indexer ∧
    (∀ k ∈ keys st'.population, k < st'.indexer) ∧
    (∀ k ∈ keys st'.population, k ∈ keys st.population ∨ st.indexer ≤ k) ∧
    (∀ p ∈ st.population, p ∈ st'.population) ∧
    st'.population.length = st.population.length + fuel ∧
    st'.speciesMap = st.speciesMap := by
  intro fuel
  induction fuel with
  | zero =>
    intro st st' h hkeys
    injection h with h
    subst h
    exact ⟨le_refl _, hkeys, fun k hk => Or.inl hk, fun p hp => hp, by omega, rfl⟩
  | succ fuel ih =>
    intro st st' h hkeys
    match pool, h with
    | p :: ps, h =>
      simp only [breedLoop, breedStep, Except.bind] at h
      set st1 : LoopState :=
        { st with
          population := dictInsert st.population st.indexer
            (env.mutate (env.crossover
              ((p :: ps).getD (env.choice st.rng % (p :: ps).length) p).2
              ((p :: ps).getD (env.choice (st.rng + 1) % (p :: ps).length) p).2 st.indexer))
          indexer := st.indexer + 1
          rng := st.rng + 2
          ancestors := st.ancestors ++
            [(st.indexer, ((p :: ps).getD (env.choice st.rng % (p :: ps).length) p).1,
              ((p :: ps).getD (env.choice (st.rng + 1) % (p :: ps).length) p).1)] }
        with hst1
      have hfresh : st.indexer ∉ keys st.population := fun hmem => by
        have := hkeys _ hmem
        omega
      have hkeys1 : ∀ k ∈ keys st1.population, k < st1.indexer := by
        intro k hk
        rw [hst1] at hk ⊢
        show k < st.indexer + 1
        simp only [keys_dictInsert_fresh _ _ _ hfresh, List.mem_append,
          List.mem_singleton] at hk
        rcases hk with hk | hk
        · exact lt_trans (hkeys k hk) (by omega)
        · omega
      obtain ⟨hidx, hlt, hchar, hpres, hlen, hmap⟩ := ih st1 st' h hkeys1
      refine ⟨?_, hlt, ?_, ?_, ?_, ?_⟩
      · calc st.indexer ≤ st.indexer + 1 := by omega
          _ ≤ st'.indexer := hidx
      · intro k hk
        rcases hchar k hk with hk1 | hk1
        · rw [hst1] at hk1
          simp only [keys_dictInsert_fresh _ _ _ hfresh, List.mem_append,
            List.mem_singleton] at hk1
          rcases hk1 with hk1 | hk1
          · exact Or.inl hk1
          · exact Or.inr (by omega)
        · exact Or.inr (by change st.indexer + 1 ≤ k at hk1; omega)
      · intro q hq
        refine hpres q ?_
        rw [hst1]
        refine mem_dictInsert_of_ne _ _ _ q hq ?_
        have := hkeys q.1 (List.mem_map.mpr ⟨q, hq, rfl⟩)
        omega
      · rw [hlen, hst1]
        simp only [length_dictInsert_fresh _ _ _ hfresh]
        omega
      · rw [hmap, hst1]

theorem eliteFold_mem_preserved :
    ∀ (elites d : List (ℕ × Genome)) (p : ℕ × Genome),
    p ∈ d → p.1 ∉ elites.map Prod.fst →
    p ∈ elites.foldl (fun d q => dictInsert d q.1 q.2) d := by
  intro elites
  induction elites with
  | nil => intro d p hp _; exact hp
  | cons e rest ih =>
    intro d p hp hnot
    simp only [List.map_cons, List.mem_cons] at hnot
    push_neg at hnot
    simp only [List.foldl_cons]
    exact ih _ p (mem_dictInsert_of_ne _ _ _ p hp hnot.1) hnot.2

theorem eliteFold_keys :
    ∀ (elites d : List (ℕ × Genome)) (a : ℕ),
    a ∈ keys (elites.foldl (fun d q => dictInsert d q.1 q.2) d) →
    a ∈ keys d ∨ a ∈ elites.map Prod.fst := by
  intro elites
  induction elites with
  | nil => intro d a ha; exact Or.inl ha
  | cons e rest ih =>
    intro d a ha
    simp only [List.foldl_cons] at ha
    rcases ih _ a ha with h1 | h1
    · rcases mem_keys_dictInsert _ _ _ _ h1 with h2 | h2
      · exact Or.inl h2
      · exact Or.inr (by simp [h2])
    · exact Or.inr (by simp [h1])

theorem eliteFold_mem_elites :
    ∀ (elites d : List (ℕ × Genome)), (elites.map Prod.fst).Nodup →
    ∀ p ∈ elites, p ∈ elites.foldl (fun d q => dictInsert d q.1 q.2) d := by
  intro elites
  induction elites with
  | nil => intro d _ p hp; simp at hp
  | cons e rest ih =>
    intro d hnd p hp
    simp only [List.map_cons, List.nodup_cons] at hnd
    simp only [List.foldl_cons]
    rcases List.mem_cons.mp hp with heq | hm
    · subst heq
      exact eliteFold_mem_preserved rest _ p (by
        have : (p.1, p.2) ∈ dictInsert d p.1 p.2 := mem_dictInsert_self d p.1 p.2
        simpa using this) hnd.1
    · exact ih _ hnd.2 p hm

theorem eliteFold_length :
    ∀ (elites d : List (ℕ × Genome)), (elites.map Prod.fst).Nodup →
    (∀ p ∈ elites, p.1 ∉ keys d) →
    (elites.foldl (fun d q => dictInsert d q.1 q.2) d).length
      = d.length + elites.length := by
  intro elites
  induction elites with
  | nil => intro d _ _; simp
  | cons e rest ih =>
    intro d hnd hdisj
    simp only [List.map_cons, List.nodup_cons] at hnd
    simp only [List.foldl_cons]
    have hfresh : e.1 ∉ keys d := hdisj e (by simp)
    have hrest : ∀ p ∈ rest, p.1 ∉ keys (dictInsert d e.1 e.2) := by
      intro p hp hk
      rcases mem_keys_dictInsert _ _ _ _ hk with h1 | h1
      · exact hdisj p (List.mem_cons_of_mem _ hp) h1
      · exact hnd.1 (h1 ▸ List.mem_map.mpr ⟨p, hp, rfl⟩)
    rw [ih _ hnd.2 hrest, length_dictInsert_fresh _ _ _ hfresh]
    simp only [List.length_cons]
    omega

theorem elitesOf_subset_ids (env : ReproEnv) (members : List (ℕ × Genome))
    (p : ℕ × Genome) (h : p ∈ elitesOf env (sortDesc members)) :
    p.1 ∈ members.map Prod.fst := by
  unfold elitesOf at h
  split at h
  · exact List.mem_map.mpr
      ⟨p, (sortDesc_perm members).mem_iff.mp (List.take_subset _ _ h), rfl⟩
  · simp at h

theorem elitesOf_keys_nodup (env : ReproEnv) (members : List (ℕ × Genome))
    (h : (members.map Prod.fst).Nodup) :
    ((elitesOf env (sortDesc members)).map Prod.fst).Nodup := by
  unfold elitesOf
  split
  · rw [List.map_take]
    exact List.Nodup.sublist (List.take_sublist _ _)
      (((sortDesc_perm members).map Prod.fst).nodup_iff.mpr h)
  · simp

theorem elitesOf_sortDesc_length (env : ReproEnv) (members : List (ℕ × Genome)) :
    (elitesOf env (sortDesc members)).length
      = if 0 < env.elitism then min env.elitism.toNat members.length else 0 := by
  unfold elitesOf
  split <;> simp [List.length_take, length_sortDesc]

theorem afterElites_keys_lt (env : ReproEnv) (st : LoopState) (sid : ℕ)
    (members : List (ℕ × Genome))
    (hkeys : ∀ k ∈ keys st.population, k < st.indexer)
    (hids : ∀ i ∈ members.map Prod.fst, i < st.indexer) :
    ∀ k ∈ keys (afterElites env st sid (sortDesc members)).population, k < st.indexer := by
  intro k hk
  rcases eliteFold_keys _ _ _ hk with h1 | h1
  · exact hkeys k h1
  · obtain ⟨p, hp, hpk⟩ := List.mem_map.mp h1
    exact hids k (hpk ▸ elitesOf_subset_ids env _ p hp)

theorem afterElites_keys_char (env : ReproEnv) (st : LoopState) (sid : ℕ)
    (members : List (ℕ × Genome)) :
    ∀ k ∈ keys (afterElites env st sid (sortDesc members)).population,
      k ∈ keys st.population ∨ k ∈ members.map Prod.fst := by
  intro k hk
  rcases eliteFold_keys _ _ _ hk with h1 | h1
  · exact Or.inl h1
  · obtain ⟨p, hp, hpk⟩ := List.mem_map.mp h1
    exact Or.inr (hpk ▸ elitesOf_subset_ids env _ p hp)

theorem afterElites_preserved (env : ReproEnv) (st : LoopState) (sid : ℕ)
    (members : List (ℕ × Genome)) :
    ∀ p ∈ st.population, p.1 ∉ members.map Prod.fst →
      p ∈ (afterElites env st sid (sortDesc members)).population := by
  intro p hp hne
  refine eliteFold_mem_preserved _ _ p hp ?_
  intro hin
  obtain ⟨q, hq, hqk⟩ := List.mem_map.mp hin
  exact hne (hqk ▸ elitesOf_subset_ids env _ q hq)

theorem processSpecies_spec (env : ReproEnv) (e : ℤ × ℕ × Species × ℚ) (st st' : LoopState)
    (h : processSpecies env st e = .ok st')
    (hkeys : ∀ k ∈ keys st.population, k < st.indexer)
    (hids : ∀ i ∈ entryIds e, i < st.indexer) :
    st.indexer ≤ st'.indexer ∧
    (∀ k ∈ keys st'.population, k < st'.indexer) ∧
    (∀ k ∈ keys st'.population, k ∈ keys st.population ∨ k ∈ entryIds e ∨ st.indexer ≤ k) ∧
    (∀ p ∈ st.population, p.1 ∉ entryIds e → p ∈ st'.population) := by
  have hkeys1 := afterElites_keys_lt env st e.2.1 e.2.2.1.members hkeys hids
  have hchar1 := afterElites_keys_char env st e.2.1 e.2.2.1.members
  have hpres1 := afterElites_preserved env st e.2.1 e.2.2.1.members
  unfold processSpecies at h
  split at h
  · injection h with h
    subst h
    exact ⟨le_refl _, hkeys, fun k hk => Or.inl hk, fun p hp _ => hp⟩
  · split at h
    · injection h with h
      subst h
      exact ⟨le_refl _, hkeys1, fun k hk => (hchar1 k hk).imp id Or.inl, hpres1⟩
    · obtain ⟨hidx, hlt, hchar, hpres, _, _⟩ := breedLoop_spec env _ _ _ _ h hkeys1
      refine ⟨hidx, hlt, ?_, ?_⟩
      · intro k hk
        rcases hchar k hk with h1 | h1
        · rcases hchar1 k h1 with h2 | h2
          · exact Or.inl h2
          · exact Or.inr (Or.inl h2)
        · exact Or.inr (Or.inr h1)
      · intro p hp hne
        exact hpres p (hpres1 p hp hne)

theorem processSpecies_length (env : ReproEnv) (e : ℤ × ℕ × Species × ℚ) (st st' : LoopState)
    (h : processSpecies env st e = .ok st')
    (hkeys : ∀ k ∈ keys st.population, k < st.indexer)
    (hids : ∀ i ∈ entryIds e, i < st.indexer)
    (hnd : (entryIds e).Nodup)
    (hdisj : ∀ i ∈ entryIds e, i ∉ keys st.population) :
    st'.population.length = st.population.length
      + (elitesCopied env e.1 e.2.2.1.members.length
         + offspringBred env e.1 e.2.2.1.members.length) := by
  have hkeys1 := afterElites_keys_lt env st e.2.1 e.2.2.1.members hkeys hids
  have hlen1 : (afterElites env st e.2.1 (sortDesc e.2.2.1.members)).population.length
      = st.population.length + (elitesOf env (sortDesc e.2.2.1.members)).length := by
    unfold afterElites
    exact eliteFold_length _ _ (elitesOf_keys_nodup env _ hnd) (fun p hp =>
      hdisj p.1 (elitesOf_subset_ids env _ p hp))
  unfold processSpecies at h
  simp only [elitesCopied, offspringBred]
  split at h
  · rename_i hc
    injection h with h
    subst h
    rw [if_pos hc, if_pos hc]
    omega
  · rename_i hc
    rw [if_neg hc, if_neg hc]
    have hecopy : (elitesOf env (sortDesc e.2.2.1.members)).length
        = if 0 < env.elitism then min env.elitism.toNat e.2.2.1.members.length else 0 :=
      elitesOf_sortDesc_length env _
    split at h
    · rename_i hc2
      injection h with h
      subst h
      rw [hlen1, hecopy]
      rw [hecopy] at hc2
      omega
    · rename_i hc2
      obtain ⟨_, _, _, _, hlen, _⟩ := breedLoop_spec env _ _ _ _ h hkeys1
      rw [hlen, hlen1, hecopy]
      rw [hecopy] at hc2
      omega

theorem processSpecies_elites (env : ReproEnv) (e : ℤ × ℕ × Species × ℚ) (st st' : LoopState)
    (h : processSpecies env st e = .ok st')
    (helit : 0 < env.elitism)
    (hkeys : ∀ k ∈ keys st.population, k < st.indexer)
    (hids : ∀ i ∈ entryIds e, i < st.indexer)
    (hnd : (entryIds e).Nodup) :
    ∀ p ∈ (sortDesc e.2.2.1.members).take env.elitism.toNat, p ∈ st'.population := by
  intro p hp
  have hmax : ¬ (max e.1 env.elitism ≤ 0) := by
    push_neg
    calc (0:ℤ) < env.elitism := helit
      _ ≤ max e.1 env.elitism := le_max_right _ _
  have hpe : p ∈ elitesOf env (sortDesc e.2.2.1.members) := by
    unfold elitesOf
    rw [if_pos helit]
    exact hp
  have hin : p ∈ (afterElites env st e.2.1 (sortDesc e.2.2.1.members)).population :=
    eliteFold_mem_elites _ _ (elitesOf_keys_nodup env _ hnd) p hpe
  have hkeys1 := afterElites_keys_lt env st e.2.1 e.2.2.1.members hkeys hids
  unfold processSpecies at h
  rw [if_neg hmax] at h
  split at h
  · injection h with h
    subst h
    exact hin
  · obtain ⟨_, _, _, hpres, _, _⟩ := breedLoop_spec env _ _ _ _ h hkeys1
    exact hpres p hin

theorem allEntryIds_cons (e : ℤ × ℕ × Species × ℚ) (rest : List (ℤ × ℕ × Species × ℚ)) :
    allEntryIds (e :: rest) = entryIds e ++ allEntryIds rest := by
  simp [allEntryIds]

theorem take_sortDesc_ids (members : List (ℕ × Genome)) (n : ℕ) (p : ℕ × Genome)
    (h : p ∈ (sortDesc members).take n) : p.1 ∈ members.map Prod.fst :=
  List.mem_map.mpr ⟨p, (sortDesc_perm members).mem_iff.mp (List.take_subset _ _ h), rfl⟩

theorem reproduceLoop_preserved (env : ReproEnv) :
    ∀ (L : List (ℤ × ℕ × Species × ℚ)) (st st' : LoopState),
    reproduceLoop env L st = .ok st' →
    (∀ k ∈ keys st.population, k < st.indexer) →
    (∀ i ∈ allEntryIds L, i < st.indexer) →
    st.indexer ≤ st'.indexer ∧
    (∀ k ∈ keys st'.population, k < st'.indexer) ∧
    (∀ p ∈ st.population, p.1 ∉ allEntryIds L → p ∈ st'.population) := by
  intro L
  induction L with
  | nil =>
    intro st st' h hkeys _
    injection h with h
    subst h
    exact ⟨le_refl _, hkeys, fun p hp _ => hp⟩
  | cons e rest ih =>
    intro st st' h hkeys hids
    simp only [reproduceLoop] at h
    obtain ⟨st1, h1, h2⟩ := except_bind_ok _ _ _ h
    rw [allEntryIds_cons] at hids
    have hids_e : ∀ i ∈ entryIds e, i < st.indexer := fun i hi =>
      hids i (List.mem_append_left _ hi)
    obtain ⟨hidx1, hlt1, _, hpres1⟩ := processSpecies_spec env e st st1 h1 hkeys hids_e
    have hids_rest : ∀ i ∈ allEntryIds rest, i < st1.indexer := fun i hi =>
      lt_of_lt_of_le (hids i (List.mem_append_right _ hi)) hidx1
    obtain ⟨hidx2, hlt2, hpres2⟩ := ih st1 st' h2 hlt1 hids_rest
    refine ⟨le_trans hidx1 hidx2, hlt2, ?_⟩
    intro p hp hnot
    rw [allEntryIds_cons] at hnot
    have hnot_e : p.1 ∉ entryIds e := fun hc => hnot (List.mem_append_left _ hc)
    have hnot_rest : p.1 ∉ allEntryIds rest := fun hc => hnot (List.mem_append_right _ hc)
    exact hpres2 p (hpres1 p hp hnot_e) hnot_rest

theorem reproduceLoop_elites (env : ReproEnv) :
    ∀ (L : List (ℤ × ℕ × Species × ℚ)) (st st' : LoopState),
    reproduceLoop env L st = .ok st' →
    0 < env.elitism →
    (∀ k ∈ keys st.population, k < st.indexer) →
    (∀ i ∈ allEntryIds L, i < st.indexer) →
    (allEntryIds L).Nodup →
    ∀ e ∈ L, ∀ p ∈ (sortDesc e.2.2.1.members).take env.elitism.toNat,
      p ∈ st'.population := by
  intro L
  induction L with
  | nil =>
    intro st st' h helit hkeys hids hnd e he
    simp at he
  | cons e0 rest ih =>
    intro st st' h helit hkeys hids hnd e he
    simp only [reproduceLoop] at h
    obtain ⟨st1, h1, h2⟩ := except_bind_ok _ _ _ h
    rw [allEntryIds_cons] at hids hnd
    have hids_e : ∀ i ∈ entryIds e0, i < st.indexer := fun i hi =>
      hids i (List.mem_append_left _ hi)
    obtain ⟨hidx1, hlt1, _, _⟩ := processSpecies_spec env e0 st st1 h1 hkeys hids_e
    have hids_rest : ∀ i ∈ allEntryIds rest, i < st1.indexer := fun i hi =>
      lt_of_lt_of_le (hids i (List.mem_append_right _ hi)) hidx1
    have hnd2 := List.nodup_append.mp hnd
    rcases List.mem_cons.mp he with heq | hmem
    · subst heq
      intro p hp
      have hin : p ∈ st1.population :=
        processSpecies_elites env e st st1 h1 helit hkeys hids_e hnd2.1 p hp
      obtain ⟨_, _, hpres⟩ := reproduceLoop_preserved env rest st1 st' h2 hlt1 hids_rest
      refine hpres p hin ?_
      intro hc
      exact hnd2.2.2 (take_sortDesc_ids _ _ p hp) hc
    · exact ih st1 st' h2 helit hlt1 hids_rest hnd2.2.1 e hmem

theorem reproduceLoop_length (env : ReproEnv) :
    ∀ (L : List (ℤ × ℕ × Species × ℚ)) (st st' : LoopState),
    reproduceLoop env L st = .ok st' →
    (∀ k ∈ keys st.population, k < st.indexer) →
    (∀ i ∈ allEntryIds L, i < st.indexer) →
    (allEntryIds L).Nodup →
    (∀ i ∈ allEntryIds L, i ∉ keys st.population) →
    st'.population.length = st.population.length
      + (L.map (fun e => elitesCopied env e.1 e.2.2.1.members.length
          + offspringBred env e.1 e.2.2.1.members.length)).sum := by
  intro L
  induction L with
  | nil =>
    intro st st' h _ _ _ _
    injection h with h
    subst h
    simp
  | cons e rest ih =>
    intro st st' h hkeys hids hnd hdisj
    simp only [reproduceLoop] at h
    obtain ⟨st1, h1, h2⟩ := except_bind_ok _ _ _ h
    rw [allEntryIds_cons] at hids hnd hdisj
    have hids_e : ∀ i ∈ entryIds e, i < st.indexer := fun i hi =>
      hids i (List.mem_append_left _ hi)
    have hnd2 := List.nodup_append.mp hnd
    have hdisj_e : ∀ i ∈ entryIds e, i ∉ keys st.population := fun i hi =>
      hdisj i (List.mem_append_left _ hi)
    have hlen1 := processSpecies_length env e st st1 h1 hkeys hids_e hnd2.1 hdisj_e
    obtain ⟨hidx1, hlt1, hchar1, _⟩ := processSpecies_spec env e st st1 h1 hkeys hids_e
    have hids_rest : ∀ i ∈ allEntryIds rest, i < st1.indexer := fun i hi =>
      lt_of_lt_of_le (hids i (List.mem_append_right _ hi)) hidx1
    have hdisj_rest : ∀ i ∈ allEntryIds rest, i ∉ keys st1.population := by
      intro i hi hmem
      rcases hchar1 i hmem with h1' | h1' | h1'
      · exact hdisj i (List.mem_append_right _ hi) h1'
      · exact hnd2.2.2 h1' hi
      · exact absurd (hids i (List.mem_append_right _ hi)) (not_lt.mpr h1')
    rw [ih st1 st' h2 hlt1 hids_rest hnd2.2.1 hdisj_rest, hlen1]
    simp only [List.map_cons, List.sum_cons]
    omega

theorem sum_map_mul (c : ℚ) : ∀ (l : List ℚ), (l.map (fun r => r * c)).sum = l.sum * c := by
  intro l
  induction l with
  | nil => simp
  | cons x xs ih => simp [ih, add_mul]

theorem round_err_sum : ∀ (xs : List ℚ),
    |(((xs.map pyRound).sum : ℤ) : ℚ) - xs.sum| ≤ (xs.length : ℚ) / 2 := by
  intro xs
  induction xs with
  | nil => simp
  | cons x t ih =>
    simp only [List.map_cons, List.sum_cons, List.length_cons, Int.cast_add,
      Nat.cast_add, Nat.cast_one]
    have h1 := pyRound_sub_abs_le x
    have h3 : ((pyRound x : ℚ) + (((t.map pyRound).sum : ℤ) : ℚ)) - (x + t.sum)
        = ((pyRound x : ℚ) - x) + ((((t.map pyRound).sum : ℤ) : ℚ) - t.sum) := by ring
    rw [h3]
    calc |((pyRound x : ℚ) - x) + ((((t.map pyRound).sum : ℤ) : ℚ) - t.sum)|
        ≤ |(pyRound x : ℚ) - x| + |(((t.map pyRound).sum : ℤ) : ℚ) - t.sum| := abs_add _ _
      _ ≤ 1/2 + (t.length : ℚ)/2 := add_le_add h1 ih
      _ = ((t.length : ℚ) + 1)/2 := by ring

theorem rawSpawn_nonneg (avg : ℚ) (e : ℕ × Species × ℚ) : 0 ≤ rawSpawn avg e := by
  unfold rawSpawn
  split <;> positivity

theorem normSpawns_ok (l : List (ℕ × Species × ℚ)) (pop_size : ℕ) (spawns : List ℤ)
    (h : normSpawns l pop_size = .ok spawns) :
    spawns = (l.map (rawSpawn (avgAdjusted l))).map
      (fun r => pyRound (r * ((pop_size : ℚ) / (l.map (rawSpawn (avgAdjusted l))).sum))) ∧
    (l.map (rawSpawn (avgAdjusted l))).sum ≠ 0 := by
  simp only [normSpawns] at h
  split at h
  · cases h
  · rename_i hne
    injection h with h
    exact ⟨h.symm, hne⟩

theorem normSpawns_length (l : List (ℕ × Species × ℚ)) (pop_size : ℕ) (spawns : List ℤ)
    (h : normSpawns l pop_size = .ok spawns) : spawns.length = l.length := by
  obtain ⟨hs, _⟩ := normSpawns_ok l pop_size spawns h
  subst hs
  simp

theorem normSpawns_nonneg (l : List (ℕ × Species × ℚ)) (pop_size : ℕ) (spawns : List ℤ)
    (h : normSpawns l pop_size = .ok spawns) : ∀ sp ∈ spawns, 0 ≤ sp := by
  obtain ⟨hs, hne⟩ := normSpawns_ok l pop_size spawns h
  subst hs
  intro sp hsp
  obtain ⟨r, hr, hre⟩ := List.mem_map.mp hsp
  subst hre
  refine pyRound_nonneg _ ?_
  have hr0 : 0 ≤ r := by
    obtain ⟨e, _, hee⟩ := List.mem_map.mp hr
    subst hee
    exact rawSpawn_nonneg _ _
  have hsum : 0 ≤ (l.map (rawSpawn (avgAdjusted l))).sum :=
    List.sum_nonneg (fun x hx => by
      obtain ⟨e, _, hee⟩ := List.mem_map.mp hx
      subst hee
      exact rawSpawn_nonneg _ _)
  exact mul_nonneg hr0 (div_nonneg (by positivity) hsum)

theorem round_scaled_sum_close (raws : List ℚ) (P : ℚ) (hne : raws.sum ≠ 0) :
    |(((raws.map (fun r => pyRound (r * (P / raws.sum)))).sum : ℤ) : ℚ) - P|
      ≤ (raws.length : ℚ) / 2 := by
  have hmap : raws.map (fun r => pyRound (r * (P / raws.sum)))
      = (raws.map (fun r => r * (P / raws.sum))).map pyRound := by
    rw [List.map_map]
    rfl
  rw [hmap]
  have hsum : (raws.map (fun r => r * (P / raws.sum))).sum = P := by
    rw [sum_map_mul, mul_comm]
    exact div_mul_cancel₀ _ hne
  have hlen : (raws.map (fun r => r * (P / raws.sum))).length = raws.length := by simp
  calc |(((raws.map (fun r => r * (P / raws.sum))).map pyRound).sum : ℚ) - P|
      = |(((raws.map (fun r => r * (P / raws.sum))).map pyRound).sum : ℚ)
          - (raws.map (fun r => r * (P / raws.sum))).sum| := by rw [hsum]
    _ ≤ ((raws.map (fun r => r * (P / raws.sum))).length : ℚ) / 2 := round_err_sum _
    _ = (raws.length : ℚ) / 2 := by rw [hlen]

theorem normSpawns_sum_close (l : List (ℕ × Species × ℚ)) (pop_size : ℕ) (spawns : List ℤ)
    (h : normSpawns l pop_size = .ok spawns) :
    |((spawns.sum : ℤ) : ℚ) - (pop_size : ℚ)| ≤ (l.length : ℚ) / 2 := by
  obtain ⟨hs, hne⟩ := normSpawns_ok l pop_size spawns h
  subst hs
  have hb := round_scaled_sum_close (l.map (rawSpawn (avgAdjusted l))) (pop_size : ℚ) hne
  simpa using hb

theorem sum_toNat_eq (l : List ℤ) (h : ∀ x ∈ l, 0 ≤ x) :
    (((l.map Int.toNat).sum : ℕ) : ℤ) = l.sum := by
  induction l with
  | nil => simp
  | cons x t ih =>
    simp only [List.map_cons, List.sum_cons, Nat.cast_add]
    rw [ih (fun y hy => h y (List.mem_cons_of_mem _ hy)),
      Int.toNat_of_nonneg (h x (List.mem_cons_self _ _))]

theorem contribution_eq_toNat (env : ReproEnv) (sp : ℤ) (m : ℕ)
    (h1 : env.elitism ≤ sp) (h2 : 0 ≤ sp) :
    elitesCopied env sp m + offspringBred env sp m = sp.toNat := by
  simp only [elitesCopied, offspringBred, max_eq_left h1]
  by_cases hsp : sp ≤ 0
  · simp only [if_pos hsp]
    omega
  · simp only [if_neg hsp]
    split
    · omega
    · omega

theorem zip_mem_of_mem_right {α β : Type} (l1 : List α) :
    ∀ (l2 : List β) (b : β), b ∈ l2 → l1.length = l2.length →
    ∃ a, (a, b) ∈ l1.zip l2 := by
  induction l1 with
  | nil =>
    intro l2 b hb hlen
    cases l2 with
    | nil => simp at hb
    | cons x t => simp at hlen
  | cons a t ih =>
    intro l2 b hb hlen
    cases l2 with
    | nil => simp at hb
    | cons b0 t2 =>
      rcases List.mem_cons.mp hb with heq | hmem
      · subst heq
        exact ⟨a, by simp⟩
      · obtain ⟨a1, ha1⟩ := ih t2 b hmem (by simpa using hlen)
        exact ⟨a1, List.mem_cons_of_mem _ ha1⟩

theorem allEntryIds_zip (spawns : List ℤ) :
    ∀ (l : List (ℕ × Species × ℚ)), spawns.length = l.length →
    allEntryIds (spawns.zip l) = l.flatMap (fun e => e.2.1.members.map Prod.fst) := by
  induction spawns with
  | nil =>
    intro l hlen
    cases l with
    | nil => simp [allEntryIds]
    | cons e t => simp at hlen
  | cons sp t ih =>
    intro l hlen
    cases l with
    | nil => simp at hlen
    | cons e t2 =>
      simp only [List.zip_cons_cons, List.flatMap_cons]
      rw [allEntryIds_cons, ih t2 (by simpa using hlen)]
      rfl

theorem reproduce_ok_inv (env : ReproEnv) (idx rng : ℕ) (stag : List (ℕ × Species × Bool))
    (pop_size : ℕ) (r : ReproResult) (h : reproduce env idx rng stag pop_size = .ok r)
    (l : List (ℕ × Species × ℚ)) (hcf : collectFitness stag = .ok l) (hne : l ≠ []) :
    ∃ spawns st', normSpawns l pop_size = .ok spawns ∧
      reproduceLoop env (spawns.zip l) ⟨[], [], idx, rng, []⟩ = .ok st' ∧
      r.population = st'.population ∧ r.speciesMap = st'.speciesMap := by
  unfold reproduce at h
  rw [hcf] at h
  simp only [Except.bind] at h
  rw [if_neg (by simpa using hne)] at h
  obtain ⟨spawns, hsp, h2⟩ := except_bind_ok _ _ _ h
  obtain ⟨st', hst', hr⟩ := except_map_ok _ _ _ h2
  subst hr
  exact ⟨spawns, st', hsp, hst', rfl, rfl⟩

set_option maxRecDepth 100000

/-- Environment for the spec's worked scenario (§8 property 7): elitism 1,
survival threshold 1/2, with concrete crossover/mutation/choice oracles. -/
def wEnv : ReproEnv :=
  { elitism := 1, survival_threshold := 1/2,
    crossover := fun p1 _p2 _gid => ⟨p1.fitness / 2, 50⟩,
    mutate := fun g => ⟨g.fitness, g.data + 7⟩,
    choice := fun k => k }

/-- Species A of the worked scenario: member fitness values 10, 20, 30. -/
def wA : Species := ⟨[(1, ⟨10, 1⟩), (2, ⟨20, 2⟩), (3, ⟨30, 3⟩)]⟩

/-- Species B of the worked scenario: member fitness values 5, 5. -/
def wB : Species := ⟨[(4, ⟨5, 4⟩), (5, ⟨5, 5⟩)]⟩

/-- Stagnation output for the worked scenario: both species survive. -/
def wStag : List (ℕ × Species × Bool) := [(1, wA, false), (2, wB, false)]

/-- The surviving-species list `species_fitness` of the worked scenario. -/
def wL : List (ℕ × Species × ℚ) := [(1, wA, 20/3), (2, wB, 5/2)]

/-- The full result of `reproduce` on the worked scenario with the genome
indexer at 10: one elite plus three offspring for A, one elite plus one
offspring for B. -/
def wR : ReproResult :=
  ⟨[(3, ⟨30, 3⟩), (10, ⟨15, 57⟩), (11, ⟨15, 57⟩), (12, ⟨15, 57⟩),
    (4, ⟨5, 4⟩), (13, ⟨5/2, 57⟩)],
   [(1, ⟨[]⟩), (2, ⟨[]⟩)], 14,
   [(10, 3, 2), (11, 3, 2), (12, 3, 2), (13, 4, 5)]⟩

/-- Oversized-elitism environment for the population-size counterexample. -/
def cEnv3 : ReproEnv :=
  { elitism := 100, survival_threshold := 1/2,
    crossover := fun p1 _p2 _gid => p1, mutate := fun g => g, choice := fun _ => 0 }

/-- One surviving singleton species of fitness 1. -/
def cStag3 : List (ℕ × Species × Bool) := [(1, ⟨[(1, ⟨1, 0⟩)]⟩, false)]

/-- Elitism-free environment for the survival-floor counterexample. -/
def cEnv6 : ReproEnv :=
  { elitism := 0, survival_threshold := 1/2,
    crossover := fun p1 _p2 _gid => p1, mutate := fun g => g, choice := fun _ => 0 }

/-- One surviving singleton species of fitness 7. -/
def cStag6 : List (ℕ × Species × Bool) := [(3, ⟨[(1, ⟨7, 1⟩)]⟩, false)]

/-- An environment whose configuration violates the spec's constraints:
negative elitism and a survival threshold outside (0, 1]. -/
def badEnv : ReproEnv :=
  { elitism := -1, survival_threshold := 3/2,
    crossover := fun p1 _p2 _gid => p1, mutate := fun g => g, choice := fun _ => 0 }

/-- Claim C1: the spec mandates that a zero total raw spawn weight across the
surviving species yield a reported, empty generation instead of an arithmetic
fault; the source does not implement this.  The only way all surviving raw
spawns sum to zero is that every surviving species has no members, and then
`reproduce` raises `ZeroDivisionError` at the adjusted-fitness division
(`species_sum / len(s.members)`); the normalization division
(`pop_size / total_spawn`) likewise faults on a zero total, as `normSpawns`
shows on the same degenerate species list. -/
theorem zero_total_spawn_faults :
    reproduce wEnv 20 0 [(7, Species.mk [], false)] 6 = .error () ∧
    normSpawns [(7, Species.mk [], 0)] 6 = .error () := ⟨by with_unfolding_all decide, by with_unfolding_all decide⟩

/-- Claim C2: every non-stagnant species collected by `reproduce`'s
stagnation-filter loop has at least one member, and its adjusted fitness is
the mean member fitness divided once more by the member count. -/
theorem adjusted_fitness_formula (stag : List (ℕ × Species × Bool))
    (l : List (ℕ × Species × ℚ)) (sid : ℕ) (s : Species) (sf : ℚ)
    (hcf : collectFitness stag = .ok l) (hmem : (sid, s, sf) ∈ l) :
    1 ≤ s.members.length ∧
    sf = ((s.members.map (fun m => m.2.fitness)).sum / (s.members.length : ℚ))
        / (s.members.length : ℚ) := by
  have hadj := collectFitness_mem stag l hcf sid s sf hmem
  have hne : s.members ≠ [] := by
    intro hempty
    rw [hempty] at hadj
    simp [adjustedFitness] at hadj
  constructor
  · have := List.length_pos.mpr hne
    omega
  · rw [adjustedFitness_eq s.members hne] at hadj
    injection hadj with hadj
    exact hadj.symm

/-- Claim C2 witness: species A of the worked scenario has adjusted fitness
20/3 = ((10 + 20 + 30)/3)/3. -/
theorem adjusted_fitness_formula_witness :
    1 ≤ wA.members.length ∧
    (20/3 : ℚ) = ((wA.members.map (fun m => m.2.fitness)).sum / (wA.members.length : ℚ))
        / (wA.members.length : ℚ) :=
  adjusted_fitness_formula wStag wL 1 wA (20/3) (by with_unfolding_all decide) (by with_unfolding_all decide)

/-- Claim C4: the spec's concrete scenario.  Two surviving species A
(fitness 10, 20, 30) and B (fitness 5, 5), elitism 1, survival threshold 1/2,
target size 6: adjusted fitnesses 20/3 and 5/2, average 55/12 = 4.583…, raw
spawns 33/10 = 3.3 and 9/5 = 1.8, normalized spawn counts 4 and 2, a final
population of exactly 6 genomes, with the fitness-30 and fitness-5 elites
preserved verbatim (same id, same genome, same payload). -/
theorem concrete_scenario :
    collectFitness wStag = .ok wL ∧
    adjustedFitness wA.members = some (20/3) ∧
    adjustedFitness wB.members = some (5/2) ∧
    avgAdjusted wL = 55/12 ∧
    wL.map (rawSpawn (avgAdjusted wL)) = [33/10, 9/5] ∧
    normSpawns wL 6 = .ok [4, 2] ∧
    reproduce wEnv 10 0 wStag 6 = .ok wR ∧
    wR.population.length = 6 ∧
    (3, (⟨30, 3⟩ : Genome)) ∈ wR.population ∧
    (4, (⟨5, 4⟩ : Genome)) ∈ wR.population := by
  refine ⟨by with_unfolding_all decide, by with_unfolding_all decide, by with_unfolding_all decide, by with_unfolding_all decide, by with_unfolding_all decide, by with_unfolding_all decide, by with_unfolding_all decide,
    by with_unfolding_all decide, by with_unfolding_all decide, by with_unfolding_all decide⟩

/-- Claim C6 counterexample: a single-member species that proceeds to
breeding has a breeding pool with exactly one candidate, not two.  On
`cStag6` (one surviving species with the single member id 1), the species
breeds two offspring — both `random.choice` draws can only return member 1,
as the ancestry record shows — while `old_members[:max(cutoff, 2)]` of the
one-element member list has length 1. -/
theorem survival_floor_counterexample :
    (breedingPool (1/2) (sortDesc [(1, (⟨7, 1⟩ : Genome))])).length = 1 ∧
    (reproduce cEnv6 5 0 cStag6 2).toOption.map (fun r => r.ancestors)
      = some [(5, 1, 1), (6, 1, 1)] := ⟨by with_unfolding_all decide, by with_unfolding_all decide⟩

/-- Claim C6 amended: the breeding pool is `old_members[:max(cutoff, 2)]`, so
it has at least two candidates whenever the species has at least two members;
a single-member species breeds from a pool of exactly one candidate. -/
theorem breeding_pool_floor_amended (threshold : ℚ) (old : List (ℕ × Genome))
    (h : 2 ≤ old.length) : 2 ≤ (breedingPool threshold old).length := by
  unfold breedingPool
  rw [List.length_take]
  refine le_min ?_ h
  have h2 : (2:ℤ) ≤ max ⌈threshold * (old.length : ℚ)⌉ 2 := le_max_right _ _
  omega

/-- Claim C6 amended witness: a two-member species keeps a pool of ≥ 2. -/
theorem breeding_pool_floor_amended_witness :
    2 ≤ (breedingPool (1/2) [(1, (⟨7, 1⟩ : Genome)), (2, ⟨6, 2⟩)]).length :=
  breeding_pool_floor_amended (1/2) _ (by with_unfolding_all decide)

/-- Claim C7: if every species in the stagnation output is stagnant,
`reproduce` clears the species map, returns an empty population, and raises
no error. -/
theorem all_stagnant_returns_empty (env : ReproEnv) (idx rng : ℕ)
    (stag : List (ℕ × Species × Bool)) (pop_size : ℕ)
    (h : ∀ e ∈ stag, e.2.2 = true) :
    reproduce env idx rng stag pop_size = .ok ⟨[], [], idx, []⟩ := by
  unfold reproduce
  rw [collectFitness_all_stagnant stag h]
  simp [Except.bind]

/-- Claim C7 witness: both scenario species stagnant. -/
theorem all_stagnant_returns_empty_witness :
    reproduce wEnv 9 0 [(1, wA, true), (2, wB, true)] 5 = .ok ⟨[], [], 9, []⟩ :=
  all_stagnant_returns_empty wEnv 9 0 _ 5 (by with_unfolding_all decide)

/-- Claim C8 counterexample: constructing `DefaultReproduction` with
`elitism = -1` and `survival_threshold = 3/2` (outside (0, 1]) succeeds and
stores the values unchecked, and `reproduce` still runs normally under that
configuration — no configuration error is raised at construction. -/
theorem config_no_validation_counterexample :
    DefaultReproduction.init (-1) (3/2) = ⟨-1, 3/2, 1, []⟩ ∧
    (reproduce badEnv 5 0 [(1, ⟨[(1, ⟨4, 0⟩)]⟩, false)] 3).toOption.isSome = true :=
  ⟨rfl, by with_unfolding_all decide⟩

/-- Claim C8 amended: `DefaultReproduction.__init__` performs no validation:
construction always succeeds, storing whatever elitism and survival
threshold it is given. -/
theorem init_accepts_any_config (elitism : ℤ) (survival_threshold : ℚ) :
    DefaultReproduction.init elitism survival_threshold
      = ⟨elitism, survival_threshold, 1, []⟩ := rfl

/-- Claim C9: the breeding `while spawn > 0` loop terminates after exactly
`spawn` iterations for every non-empty pool, appending exactly one ancestry
record per iteration and never erroring. -/
theorem breed_loop_exact_iterations (env : ReproEnv) (pool : List (ℕ × Genome))
    (fuel : ℕ) (st : LoopState) (hp : pool ≠ []) :
    (breedLoop env pool fuel st).map (fun s => s.ancestors.length)
      = .ok (st.ancestors.length + fuel) :=
  breedLoop_ancestors env pool hp fuel st

/-- Claim C9 witness: three iterations on a singleton pool. -/
theorem breed_loop_exact_iterations_witness :
    (breedLoop wEnv [(1, ⟨7, 1⟩)] 3 ⟨[], [], 0, 0, []⟩).map (fun s => s.ancestors.length)
      = .ok 3 :=
  breed_loop_exact_iterations wEnv _ 3 _ (by with_unfolding_all decide)

/-- Claim C10: any stagnation output containing an active species with zero
members makes `reproduce` raise at the `species_sum / len(s.members)`
division — active species must be non-empty for the call to be safe. -/
theorem empty_active_species_errors (env : ReproEnv) (idx rng : ℕ)
    (stag : List (ℕ × Species × Bool)) (pop_size : ℕ) (sid : ℕ) (s : Species)
    (hmem : (sid, s, false) ∈ stag) (hempty : s.members = []) :
    reproduce env idx rng stag pop_size = .error () := by
  unfold reproduce
  rw [collectFitness_error_of_empty stag sid s hmem hempty]
  rfl

/-- Claim C10 witness: a single active empty species raises. -/
theorem empty_active_species_errors_witness :
    reproduce wEnv 4 0 [(2, Species.mk [], false)] 5 = .error () :=
  empty_active_species_errors wEnv 4 0 _ 5 2 ⟨[]⟩ (by with_unfolding_all decide) (by with_unfolding_all decide)

/-- Claim C5: for every run of `reproduce` with `elitism > 0` on a
well-formed species map (member ids globally distinct and all below the
current genome-indexer value, as the indexer issued them), every
non-stagnant species' top-`elitism` members — the first `elitism` entries of
its stable descending fitness sort — appear in the returned population as
the very same `(id, genome)` pairs, untouched by crossover or mutation. -/
theorem elitism_preservation (env : ReproEnv) (idx0 rng : ℕ)
    (stag : List (ℕ × Species × Bool)) (pop_size : ℕ) (r : ReproResult)
    (helit : 0 < env.elitism)
    (hnd : (activeIds stag).Nodup)
    (hlt : ∀ i ∈ activeIds stag, i < idx0)
    (hok : reproduce env idx0 rng stag pop_size = .ok r)
    (sid : ℕ) (s : Species) (hs : (sid, s, false) ∈ stag) :
    ∀ p ∈ (sortDesc s.members).take env.elitism.toNat, p ∈ r.population := by
  have hok2 := hok
  unfold reproduce at hok2
  obtain ⟨l, hcf, _⟩ := except_bind_ok _ _ _ hok2
  obtain ⟨sf, hsf⟩ := collectFitness_active_mem stag l hcf sid s hs
  have hne : l ≠ [] := List.ne_nil_of_mem hsf
  obtain ⟨spawns, st', hns, hloop, hpop, _⟩ :=
    reproduce_ok_inv env idx0 rng stag pop_size r hok l hcf hne
  have hzlen : spawns.length = l.length := normSpawns_length l pop_size spawns hns
  obtain ⟨sp, hspmem⟩ := zip_mem_of_mem_right spawns l (sid, s, sf) hsf hzlen
  have hids_eq : allEntryIds (spawns.zip l) = activeIds stag := by
    rw [allEntryIds_zip spawns l hzlen, collectFitness_ids stag l hcf]
  have hkeys0 : ∀ k ∈ keys (⟨[], [], idx0, rng, []⟩ : LoopState).population,
      k < (⟨[], [], idx0, rng, []⟩ : LoopState).indexer := by
    intro k hk
    simp [keys] at hk
  have hids0 : ∀ i ∈ allEntryIds (spawns.zip l), i < idx0 := by
    rw [hids_eq]
    exact hlt
  have hnd0 : (allEntryIds (spawns.zip l)).Nodup := by
    rw [hids_eq]
    exact hnd
  have hall := reproduceLoop_elites env (spawns.zip l) _ st' hloop helit hkeys0 hids0 hnd0
    (sp, (sid, s, sf)) hspmem
  intro p hp
  rw [hpop]
  exact hall p hp

/-- Claim C5 witness: in the worked scenario the elite of species A, the
pair `(3, ⟨30, 3⟩)`, is in the returned population unchanged. -/
theorem elitism_preservation_witness : (3, (⟨30, 3⟩ : Genome)) ∈ wR.population :=
  elitism_preservation wEnv 10 0 wStag 6 wR (by with_unfolding_all decide)
    (by with_unfolding_all decide) (by with_unfolding_all decide)
    (by with_unfolding_all decide) 1 wA (by with_unfolding_all decide)
    (3, ⟨30, 3⟩) (by with_unfolding_all decide)

/-- Claim C3 counterexample: the claimed ± numSpecies tolerance fails.  With
one surviving singleton species, `elitism = 100` and `targetSize = 1`, the
elitism floor `spawn = max(spawn, elitism)` makes the species produce 100
genomes: the returned population misses the target by 99, far beyond the
claimed tolerance of ± 1 (one surviving species). -/
theorem population_bound_counterexample :
    (reproduce cEnv3 10 0 cStag3 1).toOption.map (fun r => r.population.length)
      = some 100 ∧ ¬ (|(100 : ℤ) - (1 : ℤ)| ≤ (1 : ℤ)) :=
  ⟨by with_unfolding_all decide, by with_unfolding_all decide⟩

/-- Claim C3 amended: on every well-formed run (member ids globally distinct
and below the indexer, at least one surviving species), the returned
population size is exactly the sum over the zipped spawn list of per-species
elites copied plus offspring bred — unconditionally, including runs where
the elitism floor inflates a species; and whenever every normalized spawn
count is at least `elitism` (so the floor `spawn = max(spawn, elitism)`
never inflates), that size is moreover within ± (number of surviving
species) of the requested population size. -/
theorem population_conservation_amended (env : ReproEnv) (idx0 rng : ℕ)
    (stag : List (ℕ × Species × Bool)) (pop_size : ℕ)
    (l : List (ℕ × Species × ℚ)) (spawns : List ℤ) (r : ReproResult)
    (hcf : collectFitness stag = .ok l)
    (hne : l ≠ [])
    (hns : normSpawns l pop_size = .ok spawns)
    (hnd : (activeIds stag).Nodup)
    (hlt : ∀ i ∈ activeIds stag, i < idx0)
    (hok : reproduce env idx0 rng stag pop_size = .ok r) :
    r.population.length
      = ((spawns.zip l).map (fun e => elitesCopied env e.1 e.2.2.1.members.length
          + offspringBred env e.1 e.2.2.1.members.length)).sum ∧
    ((∀ sp ∈ spawns, env.elitism ≤ sp) →
      |(r.population.length : ℤ) - (pop_size : ℤ)| ≤ (l.length : ℤ)) := by
  obtain ⟨spawns2, st', hns2, hloop, hpop, _⟩ :=
    reproduce_ok_inv env idx0 rng stag pop_size r hok l hcf hne
  rw [hns] at hns2
  injection hns2 with hsp2
  subst hsp2
  have hzlen : spawns.length = l.length := normSpawns_length l pop_size spawns hns
  have hids_eq : allEntryIds (spawns.zip l) = activeIds stag := by
    rw [allEntryIds_zip spawns l hzlen, collectFitness_ids stag l hcf]
  have hkeys0 : ∀ k ∈ keys (⟨[], [], idx0, rng, []⟩ : LoopState).population,
      k < (⟨[], [], idx0, rng, []⟩ : LoopState).indexer := by
    intro k hk
    simp [keys] at hk
  have hids0 : ∀ i ∈ allEntryIds (spawns.zip l),
      i < (⟨[], [], idx0, rng, []⟩ : LoopState).indexer := by
    rw [hids_eq]
    exact hlt
  have hnd0 : (allEntryIds (spawns.zip l)).Nodup := by
    rw [hids_eq]
    exact hnd
  have hdisj0 : ∀ i ∈ allEntryIds (spawns.zip l),
      i ∉ keys (⟨[], [], idx0, rng, []⟩ : LoopState).population := by
    intro i _ hmem
    simp [keys] at hmem
  have hlen := reproduceLoop_length env (spawns.zip l) _ st' hloop hkeys0 hids0 hnd0 hdisj0
  rw [hpop, hlen]
  simp only [List.length_nil, Nat.zero_add]
  refine ⟨trivial, ?_⟩
  intro hel
  have hnn := normSpawns_nonneg l pop_size spawns hns
  have hcontrib : (spawns.zip l).map (fun e => elitesCopied env e.1 e.2.2.1.members.length
      + offspringBred env e.1 e.2.2.1.members.length)
      = (spawns.zip l).map (fun e => e.1.toNat) := by
    refine List.map_congr_left ?_
    intro x hx
    exact contribution_eq_toNat env x.1 _ (hel x.1 (List.of_mem_zip hx).1)
      (hnn x.1 (List.of_mem_zip hx).1)
  have hfst : (spawns.zip l).map (fun e => e.1.toNat) = spawns.map Int.toNat := by
    have h1 : (spawns.zip l).map (fun e => e.1.toNat)
        = ((spawns.zip l).map Prod.fst).map Int.toNat := by
      rw [List.map_map]
      rfl
    rw [h1, List.map_fst_zip spawns l (le_of_eq hzlen)]
  rw [hcontrib, hfst]
  have hsum_eq : (((spawns.map Int.toNat).sum : ℕ) : ℤ) = spawns.sum :=
    sum_toNat_eq spawns hnn
  rw [hsum_eq]
  have hq := normSpawns_sum_close l pop_size spawns hns
  have hhalf : ((l.length : ℚ)) / 2 ≤ (l.length : ℚ) := by
    have h0 : (0:ℚ) ≤ (l.length : ℚ) := by positivity
    linarith
  have hq2 : |((spawns.sum : ℤ) : ℚ) - (pop_size : ℚ)| ≤ ((l.length : ℤ) : ℚ) := by
    calc |((spawns.sum : ℤ) : ℚ) - (pop_size : ℚ)| ≤ (l.length : ℚ)/2 := hq
      _ ≤ (l.length : ℚ) := hhalf
      _ = ((l.length : ℤ) : ℚ) := by push_cast; ring
  exact_mod_cast hq2

/-- Claim C3 witness: the worked scenario (spawn counts 4 and 2, elitism 1)
returns 6 = (1 + 3) + (1 + 1) genomes, which equals the target size 6 within
± 2 (two surviving species). -/
theorem population_conservation_amended_witness :
    wR.population.length
      = ((([4, 2] : List ℤ).zip wL).map (fun e => elitesCopied wEnv e.1 e.2.2.1.members.length
          + offspringBred wEnv e.1 e.2.2.1.members.length)).sum ∧
    |(wR.population.length : ℤ) - ((6 : ℕ) : ℤ)| ≤ (wL.length : ℤ) := by
  have h := population_conservation_amended wEnv 10 0 wStag 6 wL [4, 2] wR
    (by with_unfolding_all decide) (by with_unfolding_all decide)
    (by with_unfolding_all decide) (by with_unfolding_all decide)
    (by with_unfolding_all decide) (by with_unfolding_all decide)
  exact ⟨h.1, h.2 (by with_unfolding_all decide)⟩
